import Mathlib

/-!
Shallow embedding of the HR-analytics dashboard (src/dashboard.py).

The dashboard loads an uploaded CSV into a table of employee records,
derives two categorical filters (Department, Gender), builds the filtered
view, and computes KPI metrics and seven per-chart aggregations over it.
Numeric columns are modelled as rationals, tables as lists of rows, and
pandas NaN results (e.g. the mean of an empty series) as `Option.none`.
-/

namespace HRDashboard

/-- One employee record: the columns of `final_dataset.csv` the dashboard
reads.  `LPA_Profile` is kept numeric because the source includes it in the
numeric correlation columns while also grouping by it.  The `Attrition`
field only carries meaning when the table-level flag `hasAttrition` is set
(modelling presence of the optional `Attrition` column). -/
structure Row where
  EmployeeID : String
  Department : String
  Gender : String
  Age : ℚ
  TenureMonths : ℚ
  PerformanceScore : ℚ
  Satisfaction : ℚ
  Engagement : ℚ
  Motivation : ℚ
  Stress : ℚ
  WorkLifeBalance : ℚ
  OvertimeHours : ℚ
  TrainingHoursLastYear : ℚ
  AbsenteeismDays : ℚ
  PeerRating : ℚ
  ManagerRating : ℚ
  ProjectLoad : ℚ
  LPA_Profile : ℚ
  Attrition : ℚ
deriving DecidableEq

/-- A loaded table: its rows plus whether the optional `Attrition` column
is present (`"Attrition" in df.columns` in the source). -/
structure Table where
  rows : List Row
  hasAttrition : Bool
deriving DecidableEq

/-- The sidebar selection: a Department value or `"All"`, and a Gender
value or `"All"` (`dept_filter` / `gender_filter` in the source). -/
structure FilterSelection where
  dept : String
  gender : String
deriving DecidableEq

/-- `df_filtered` (src/dashboard.py lines 39-45): start from a copy of the
table, keep rows whose `Department` equals the selection when it is not
`"All"`, then keep rows whose `Gender` equals the selection when it is not
`"All"`. -/
def applyFilters (df : List Row) (sel : FilterSelection) : List Row :=
  let d1 := if sel.dept ≠ "All" then
    df.filter fun r => decide (r.Department = sel.dept) else df
  if sel.gender ≠ "All" then
    d1.filter fun r => decide (r.Gender = sel.gender) else d1

/-- First-occurrence deduplication with an accumulator of already-seen
values: the semantics of `pandas.Series.unique`. -/
def pdUniqueAux {α : Type} [DecidableEq α] : List α → List α → List α
  | _, [] => []
  | seen, a :: l =>
    if a ∈ seen then pdUniqueAux seen l else a :: pdUniqueAux (a :: seen) l

/-- `df[col].unique()`: the distinct values of a column in order of first
occurrence. -/
def pdUnique {α : Type} [DecidableEq α] (l : List α) : List α :=
  pdUniqueAux [] l

/-- `sorted(df[col].unique())` (src/dashboard.py lines 36-37): the sorted
distinct values of a categorical column, used to populate a selector. -/
def distinctValues (df : List Row) (f : Row → String) : List String :=
  List.insertionSort (fun a b => a ≤ b) (pdUnique (df.map f))

/-- Options of the Department selectbox: `["All"] + sorted(uniques)`. -/
def deptOptions (df : List Row) : List String :=
  "All" :: distinctValues df (fun r => r.Department)

/-- Options of the Gender selectbox: `["All"] + sorted(uniques)`. -/
def genderOptions (df : List Row) : List String :=
  "All" :: distinctValues df (fun r => r.Gender)

section FilterEngine

lemma applyFilters_sublist (df : List Row) (sel : FilterSelection) :
    (applyFilters df sel).Sublist df := by
  have h1 : (if sel.dept ≠ "All" then
      df.filter (fun r => decide (r.Department = sel.dept)) else df).Sublist df := by
    split
    · exact List.filter_sublist _
    · exact List.Sublist.refl _
  simp only [applyFilters]
  split
  · exact (List.filter_sublist _).trans h1
  · exact h1

lemma mem_applyFilters (df : List Row) (sel : FilterSelection) (r : Row) :
    r ∈ applyFilters df sel ↔
      r ∈ df ∧ (sel.dept ≠ "All" → r.Department = sel.dept) ∧
        (sel.gender ≠ "All" → r.Gender = sel.gender) := by
  unfold applyFilters
  by_cases hd : sel.dept = "All" <;> by_cases hg : sel.gender = "All" <;>
    simp [hd, hg, List.mem_filter]
  tauto

end FilterEngine

section PdUnique

lemma mem_pdUniqueAux {α : Type} [DecidableEq α] :
    ∀ (l seen : List α) (b : α),
      b ∈ pdUniqueAux seen l ↔ b ∈ l ∧ b ∉ seen
  | [], seen, b => by simp [pdUniqueAux]
  | a :: l, seen, b => by
    by_cases ha : a ∈ seen
    · rw [pdUniqueAux, if_pos ha, mem_pdUniqueAux l seen b, List.mem_cons]
      constructor
      · exact fun h => ⟨Or.inr h.1, h.2⟩
      · rintro ⟨h | h, hs⟩
        · subst h; exact absurd ha hs
        · exact ⟨h, hs⟩
    · rw [pdUniqueAux, if_neg ha]
      simp only [List.mem_cons, mem_pdUniqueAux l (a :: seen) b]
      by_cases hba : b = a
      · subst hba; simp [ha]
      · simp only [hba, false_or]

lemma mem_pdUnique {α : Type} [DecidableEq α] (l : List α) (b : α) :
    b ∈ pdUnique l ↔ b ∈ l := by
  simp [pdUnique, mem_pdUniqueAux]

lemma nodup_pdUniqueAux {α : Type} [DecidableEq α] :
    ∀ (l seen : List α), (pdUniqueAux seen l).Nodup
  | [], _ => by simp [pdUniqueAux]
  | a :: l, seen => by
    by_cases ha : a ∈ seen
    · rw [pdUniqueAux, if_pos ha]; exact nodup_pdUniqueAux l seen
    · rw [pdUniqueAux, if_neg ha]
      refine List.Nodup.cons ?_ (nodup_pdUniqueAux l (a :: seen))
      intro hmem
      exact ((mem_pdUniqueAux l (a :: seen) a).mp hmem).2 (List.mem_cons_self a _)

lemma nodup_pdUnique {α : Type} [DecidableEq α] (l : List α) :
    (pdUnique l).Nodup :=
  nodup_pdUniqueAux l []

lemma card_insert_eq_card_erase_add_one {α : Type} [DecidableEq α]
    (u : Finset α) (a : α) : (insert a u).card = (u.erase a).card + 1 := by
  by_cases h : a ∈ u
  · rw [Finset.insert_eq_self.mpr h, Finset.card_erase_of_mem h]
    have : 0 < u.card := Finset.card_pos.mpr ⟨a, h⟩
    omega
  · rw [Finset.card_insert_of_not_mem h, Finset.erase_eq_of_not_mem h]

lemma length_pdUniqueAux {α : Type} [DecidableEq α] :
    ∀ (l seen : List α),
      (pdUniqueAux seen l).length = (l.toFinset \ seen.toFinset).card
  | [], seen => by simp [pdUniqueAux]
  | a :: l, seen => by
    by_cases ha : a ∈ seen
    · rw [pdUniqueAux, if_pos ha, length_pdUniqueAux l seen]
      have : insert a l.toFinset \ seen.toFinset = l.toFinset \ seen.toFinset :=
        Finset.insert_sdiff_of_mem _ (List.mem_toFinset.mpr ha)
      rw [List.toFinset_cons, this]
    · rw [pdUniqueAux, if_neg ha, List.length_cons,
        length_pdUniqueAux l (a :: seen)]
      rw [List.toFinset_cons, List.toFinset_cons, Finset.sdiff_insert,
        Finset.insert_sdiff_of_not_mem _ (by simpa using ha),
        card_insert_eq_card_erase_add_one]

lemma length_pdUnique {α : Type} [DecidableEq α] (l : List α) :
    (pdUnique l).length = l.toFinset.card := by
  rw [pdUnique, length_pdUniqueAux]
  simp

end PdUnique

/-- C9: every row of the filtered view is a row of the input table; the
view is recomputed as a pure function of the table and selection. -/
theorem filteredView_subset_dataset (df : List Row) (sel : FilterSelection)
    (r : Row) : r ∈ applyFilters df sel → r ∈ df :=
  fun h => (applyFilters_sublist df sel).subset h

/-- Concrete rows used by the witnesses: two departments, two genders. -/
def rowA : Row :=
  ⟨"E1", "Eng", "F", 30, 24, 4, 3, 5, 4, 2, 3, 10, 20, 1, 4, 4, 3, 1, 0⟩

def rowB : Row :=
  ⟨"E2", "Sales", "M", 41, 60, 3, 4, 2, 3, 5, 2, 0, 5, 2, 3, 3, 4, 2, 1⟩

def rowC : Row :=
  ⟨"E3", "Eng", "M", 25, 12, 5, 5, 4, 5, 1, 4, 8, 30, 0, 5, 5, 2, 1, 0⟩

def dfTest : List Row := [rowA, rowB, rowC]

theorem filteredView_subset_dataset_witness : rowA ∈ dfTest :=
  filteredView_subset_dataset dfTest ⟨"Eng", "All"⟩ rowA (by decide)

/-- C1: a row is in the filtered view iff it is a row of the table, its
Department matches whenever the department constraint is not "All", and its
Gender matches whenever the gender constraint is not "All" — the two
constraints compose as a logical AND, and an "All" field imposes nothing. -/
theorem applyFilters_mem_iff (df : List Row) (sel : FilterSelection)
    (r : Row) :
    r ∈ applyFilters df sel ↔
      r ∈ df ∧ (sel.dept ≠ "All" → r.Department = sel.dept) ∧
        (sel.gender ≠ "All" → r.Gender = sel.gender) :=
  mem_applyFilters df sel r

theorem applyFilters_mem_iff_witness :
    rowA ∈ applyFilters dfTest ⟨"Eng", "F"⟩ ↔
      rowA ∈ dfTest ∧ ("Eng" ≠ "All" → rowA.Department = "Eng") ∧
        ("F" ≠ "All" → rowA.Gender = "F") :=
  applyFilters_mem_iff dfTest ⟨"Eng", "F"⟩ rowA

/-- C7: the fully unconstrained selection ("All", "All") returns the table
unchanged. -/
theorem applyFilters_all_unconstrained (df : List Row) :
    applyFilters df ⟨"All", "All"⟩ = df := by
  simp [applyFilters]

/-- C10: the filtered view is a sublist of the input: the surviving rows
keep their original relative order and their field values are untouched;
`applyFilters` is a pure function, so the input table itself is unchanged. -/
theorem applyFilters_sublist_of_input (df : List Row) (sel : FilterSelection) :
    (applyFilters df sel).Sublist df :=
  applyFilters_sublist df sel

/-- C5: the selector population `distinctValues` is sorted ascending, has
no duplicates, and its length is the number of distinct values of the
column; the selector options are "All" followed by it. -/
theorem distinctValues_spec (df : List Row) (f : Row → String) :
    (distinctValues df f).Sorted (· ≤ ·)
    ∧ (distinctValues df f).Nodup
    ∧ (distinctValues df f).length = (df.map f).toFinset.card
    ∧ deptOptions df = "All" :: distinctValues df (fun r => r.Department)
    ∧ genderOptions df = "All" :: distinctValues df (fun r => r.Gender) := by
  refine ⟨List.sorted_insertionSort _ _, ?_, ?_, rfl, rfl⟩
  · exact (List.perm_insertionSort _ _).nodup_iff.mpr (nodup_pdUnique _)
  · rw [distinctValues, (List.perm_insertionSort _ _).length_eq,
      length_pdUnique]

/-- `series.mean()`: NaN (modelled as `none`) on an empty series, else the
arithmetic mean. -/
def seriesMean (l : List ℚ) : Option ℚ :=
  if l.length = 0 then none else some (l.sum / l.length)

/-- KPI card 1: `df_filtered.shape[0]`. -/
def kpiTotalEmployees (view : List Row) : ℕ := view.length

/-- KPI card 2: `df_filtered['Satisfaction'].mean()`. -/
def kpiAvgSatisfaction (view : List Row) : Option ℚ :=
  seriesMean (view.map fun r => r.Satisfaction)

/-- KPI card 3: `df_filtered['PerformanceScore'].mean()`. -/
def kpiAvgPerformance (view : List Row) : Option ℚ :=
  seriesMean (view.map fun r => r.PerformanceScore)

/-- KPI card 4: `df_filtered['LPA_Profile'].nunique()`. -/
def kpiProfileCount (view : List Row) : ℕ :=
  (pdUnique (view.map fun r => r.LPA_Profile)).length

/-- Chart 1 data: `df_filtered["LPA_Profile"].value_counts()` — one count
per distinct profile, ordered by descending count. -/
def profileCounts (view : List Row) : List (ℚ × ℕ) :=
  List.insertionSort (fun a b => b.2 ≤ a.2)
    ((pdUnique (view.map fun r => r.LPA_Profile)).map
      fun k => (k, (view.filter fun r => decide (r.LPA_Profile = k)).length))

/-- Chart 2 data: the pie chart groups `df_filtered` by `Department` and
counts rows per department. -/
def deptCounts (view : List Row) : List (String × ℕ) :=
  (pdUnique (view.map fun r => r.Department)).map
    fun k => (k, (view.filter fun r => decide (r.Department = k)).length)

/-- Chart 5 data: `WorkLifeBalance` values grouped by `Department` (the
box plot's per-department samples). -/
def wlbByDept (view : List Row) : List (String × List ℚ) :=
  (pdUnique (view.map fun r => r.Department)).map
    fun d => (d, (view.filter fun r => decide (r.Department = d)).map
      fun r => r.WorkLifeBalance)

section GroupCountSums

lemma sum_map_add {α : Type} (l : List α) (f g : α → ℕ) :
    (l.map fun x => f x + g x).sum = (l.map f).sum + (l.map g).sum := by
  induction l with
  | nil => simp
  | cons a l ih => simp [ih]; omega

lemma sum_indicator_eq_zero {κ : Type} [DecidableEq κ] (a : κ) :
    ∀ keys : List κ, a ∉ keys →
      (keys.map fun k => if a = k then (1 : ℕ) else 0).sum = 0
  | [], _ => by simp
  | k :: keys, h => by
    have hak : a ≠ k := fun hc => h (hc ▸ List.mem_cons_self k keys)
    have h' : a ∉ keys := fun hc => h (List.mem_cons_of_mem _ hc)
    simp [hak, sum_indicator_eq_zero a keys h']

lemma sum_indicator_eq_one {κ : Type} [DecidableEq κ] (a : κ) :
    ∀ keys : List κ, keys.Nodup → a ∈ keys →
      (keys.map fun k => if a = k then (1 : ℕ) else 0).sum = 1
  | [], _, hmem => absurd hmem (List.not_mem_nil a)
  | k :: keys, hnd, hmem => by
    rcases List.mem_cons.mp hmem with rfl | hmem'
    · have hnotin : a ∉ keys := (List.nodup_cons.mp hnd).1
      simp [sum_indicator_eq_zero a keys hnotin]
    · have hak : a ≠ k := by
        rintro rfl
        exact (List.nodup_cons.mp hnd).1 hmem'
      simp [hak,
        sum_indicator_eq_one a keys (List.nodup_cons.mp hnd).2 hmem']

/-- A nodup key list covering every mapped value partitions the list: the
per-key filter lengths sum to the list's length. -/
lemma sum_length_filter_eq {α κ : Type} [DecidableEq κ] (f : α → κ)
    (keys : List κ) (hnd : keys.Nodup) :
    ∀ l : List α, (∀ x ∈ l, f x ∈ keys) →
      (keys.map fun k => (l.filter fun x => decide (f x = k)).length).sum
        = l.length
  | [], _ => by simp
  | x :: l, hcov => by
    have hx : f x ∈ keys := hcov x (List.mem_cons_self x l)
    have hcov' : ∀ y ∈ l, f y ∈ keys :=
      fun y hy => hcov y (List.mem_cons_of_mem _ hy)
    have hpt : (keys.map
          fun k => ((x :: l).filter fun y => decide (f y = k)).length)
        = keys.map fun k =>
            (if f x = k then 1 else 0)
              + (l.filter fun y => decide (f y = k)).length := by
      refine List.map_congr_left fun k _ => ?_
      by_cases h : f x = k
      · simp [List.filter_cons, h]; omega
      · simp [List.filter_cons, h]
    rw [hpt, sum_map_add, sum_indicator_eq_one _ keys hnd hx,
      sum_length_filter_eq f keys hnd l hcov']
    simp [Nat.add_comm]

end GroupCountSums

/-- C6: for every filtered view, the per-group counts of the profile
distribution (chart 1) and the department share (chart 2) sum to the
view's row count. -/
theorem groupedCounts_sum_to_rowCount (view : List Row) :
    ((profileCounts view).map Prod.snd).sum = kpiTotalEmployees view
    ∧ ((deptCounts view).map Prod.snd).sum = kpiTotalEmployees view := by
  constructor
  · have hperm :=
      (List.perm_insertionSort (fun a b : ℚ × ℕ => b.2 ≤ a.2)
        ((pdUnique (view.map fun r => r.LPA_Profile)).map
          fun k => (k, (view.filter fun r => decide (r.LPA_Profile = k)).length))).map
        Prod.snd
    rw [profileCounts, hperm.sum_eq, List.map_map]
    exact sum_length_filter_eq (fun r => r.LPA_Profile) _ (nodup_pdUnique _)
      view (fun x hx => (mem_pdUnique _ _).mpr (List.mem_map_of_mem _ hx))
  · rw [deptCounts, List.map_map]
    exact sum_length_filter_eq (fun r => r.Department) _ (nodup_pdUnique _)
      view (fun x hx => (mem_pdUnique _ _).mpr (List.mem_map_of_mem _ hx))

/-- `attr_data["Attrition"].mean()` within one profile group: plain
rational mean (groups are always nonempty in use). -/
def meanQ (l : List ℚ) : ℚ := l.sum / l.length

/-- The group keys of `df_filtered.groupby("LPA_Profile")`: the distinct
profiles, sorted ascending (pandas groupby sorts its keys). -/
def profileKeys (view : List Row) : List ℚ :=
  List.insertionSort (fun a b => a ≤ b)
    (pdUnique (view.map fun r => r.LPA_Profile))

/-- Mean `Attrition` of the rows with a given profile. -/
def groupAttritionMean (view : List Row) (p : ℚ) : ℚ :=
  meanQ ((view.filter fun r => decide (r.LPA_Profile = p)).map
    fun r => r.Attrition)

/-- `attr_data` (src/dashboard.py lines 157-158): per-profile mean
attrition, scaled by 100. -/
def attrData (view : List Row) : List (ℚ × ℚ) :=
  (profileKeys view).map fun p => (p, groupAttritionMean view p * 100)

/-- Outcome of the chart-7 block: either the bar-chart data or the
`st.warning` branch. -/
inductive Chart7 where
  | chart (data : List (ℚ × ℚ))
  | warning (msg : String)
deriving DecidableEq

/-- Chart 7 (src/dashboard.py lines 153-170): emit the attrition bar chart
when the `Attrition` column is present, else a user-visible warning. -/
def renderChart7 (t : Table) : Chart7 :=
  if t.hasAttrition then Chart7.chart (attrData t.rows)
  else Chart7.warning "Attrition column not found in dataset."

/-- Filtering the uploaded table: the sidebar filters select rows; column
presence (`hasAttrition`) is untouched. -/
def filterTable (t : Table) (sel : FilterSelection) : Table :=
  ⟨applyFilters t.rows sel, t.hasAttrition⟩

/-- C4: when `Attrition` is present the chart-7 data is the mean of
`Attrition` grouped by `LPA_Profile`, scaled by 100, with exactly one pair
per distinct profile of the filtered view; when it is absent the chart is
replaced by the warning, and no error is raised (the render function is
total). -/
theorem attritionChart_spec (t : Table) (sel : FilterSelection) :
    (t.hasAttrition = true →
      renderChart7 (filterTable t sel)
          = Chart7.chart (attrData (applyFilters t.rows sel))
      ∧ (attrData (applyFilters t.rows sel)).map Prod.fst
          = profileKeys (applyFilters t.rows sel)
      ∧ (profileKeys (applyFilters t.rows sel)).Nodup
      ∧ (∀ p : ℚ, p ∈ profileKeys (applyFilters t.rows sel) ↔
          ∃ r ∈ applyFilters t.rows sel, r.LPA_Profile = p)
      ∧ ∀ pr ∈ attrData (applyFilters t.rows sel),
          pr.2 = groupAttritionMean (applyFilters t.rows sel) pr.1 * 100)
    ∧ (t.hasAttrition = false →
      renderChart7 (filterTable t sel)
        = Chart7.warning "Attrition column not found in dataset.") := by
  constructor
  · intro hattr
    refine ⟨?_, ?_, ?_, ?_, ?_⟩
    · simp [renderChart7, filterTable, hattr]
    · rw [attrData, List.map_map]
      exact List.map_id _
    · exact (List.perm_insertionSort _ _).nodup_iff.mpr (nodup_pdUnique _)
    · intro p
      rw [profileKeys, (List.perm_insertionSort _ _).mem_iff, mem_pdUnique]
      constructor
      · intro hp
        rcases List.mem_map.mp hp with ⟨r, hr, hrp⟩
        exact ⟨r, hr, hrp⟩
      · rintro ⟨r, hr, hrp⟩
        exact List.mem_map.mpr ⟨r, hr, hrp⟩
    · intro pr hpr
      rcases List.mem_map.mp hpr with ⟨p, _, rfl⟩
      rfl
  · intro hattr
    simp [renderChart7, filterTable, hattr]

theorem attritionChart_spec_witness :
    (renderChart7 (filterTable ⟨dfTest, true⟩ ⟨"All", "All"⟩)
      = Chart7.chart (attrData (applyFilters dfTest ⟨"All", "All"⟩)))
    ∧ (renderChart7 (filterTable ⟨dfTest, false⟩ ⟨"All", "All"⟩)
      = Chart7.warning "Attrition column not found in dataset.") :=
  ⟨((attritionChart_spec ⟨dfTest, true⟩ ⟨"All", "All"⟩).1 rfl).1,
    (attritionChart_spec ⟨dfTest, false⟩ ⟨"All", "All"⟩).2 rfl⟩

/-- The `Stress` column of the filtered view. -/
def stressValues (view : List Row) : List ℚ := view.map fun r => r.Stress

/-- Minimum of a column (fold over the values, seeded with the head). -/
def listMin (l : List ℚ) : ℚ := l.foldl min (l.headD 0)

/-- Maximum of a column (fold over the values, seeded with the head). -/
def listMax (l : List ℚ) : ℚ := l.foldl max (l.headD 0)

/-- Width of one of the 20 equal histogram bins. -/
def binWidth (lo hi : ℚ) : ℚ := (hi - lo) / 20

/-- Membership of a value in bin `i` of the 20-bin histogram: bins are
half-open `[lo + i·w, lo + (i+1)·w)` except the last, which closes at the
top of the range. -/
def inBin (lo w : ℚ) (i : ℕ) (s : ℚ) : Bool :=
  decide (lo + (i : ℚ) * w ≤ s) &&
    (if i + 1 = 20 then decide (s ≤ lo + 20 * w)
      else decide (s < lo + ((i : ℚ) + 1) * w))

/-- Modelled from the spec: the binning performed inside the external
charting call `px.histogram(df_filtered, x="Stress", nbins=20,
color="Gender")` (src/dashboard.py lines 106-113) is not in this
repository; per the spec it is a histogram with 20 fixed bins across the
observed range of `Stress` within the filtered view, one count series per
gender value present. -/
def stressHistogram (view : List Row) : List (String × List ℕ) :=
  if view.isEmpty then []
  else
    (pdUnique (view.map fun r => r.Gender)).map fun g =>
      (g, (List.range 20).map fun i =>
        (view.filter fun r =>
          decide (r.Gender = g) &&
            inBin (listMin (stressValues view))
              (binWidth (listMin (stressValues view))
                (listMax (stressValues view))) i r.Stress).length)

section MinMax

lemma foldl_min_le : ∀ (t : List ℚ) (a : ℚ),
    t.foldl min a ≤ a ∧ ∀ x ∈ t, t.foldl min a ≤ x
  | [], a => ⟨le_refl a, fun x hx => absurd hx (List.not_mem_nil x)⟩
  | b :: t, a => by
    have ih := foldl_min_le t (min a b)
    refine ⟨le_trans ih.1 (min_le_left a b), fun x hx => ?_⟩
    rcases List.mem_cons.mp hx with rfl | hx
    · exact le_trans ih.1 (min_le_right a x)
    · exact ih.2 x hx

lemma foldl_min_mem : ∀ (t : List ℚ) (a : ℚ),
    t.foldl min a = a ∨ t.foldl min a ∈ t
  | [], _ => Or.inl rfl
  | b :: t, a => by
    rcases foldl_min_mem t (min a b) with h | h
    · rcases min_choice a b with hm | hm
      · exact Or.inl (by rw [List.foldl_cons, h, hm])
      · refine Or.inr ?_
        rw [List.foldl_cons, h, hm]
        exact List.mem_cons_self b t
    · exact Or.inr (List.mem_cons_of_mem b h)

lemma le_foldl_max : ∀ (t : List ℚ) (a : ℚ),
    a ≤ t.foldl max a ∧ ∀ x ∈ t, x ≤ t.foldl max a
  | [], a => ⟨le_refl a, fun x hx => absurd hx (List.not_mem_nil x)⟩
  | b :: t, a => by
    have ih := le_foldl_max t (max a b)
    refine ⟨le_trans (le_max_left a b) ih.1, fun x hx => ?_⟩
    rcases List.mem_cons.mp hx with rfl | hx
    · exact le_trans (le_max_right a x) ih.1
    · exact ih.2 x hx

lemma foldl_max_mem : ∀ (t : List ℚ) (a : ℚ),
    t.foldl max a = a ∨ t.foldl max a ∈ t
  | [], _ => Or.inl rfl
  | b :: t, a => by
    rcases foldl_max_mem t (max a b) with h | h
    · rcases max_choice a b with hm | hm
      · exact Or.inl (by rw [List.foldl_cons, h, hm])
      · refine Or.inr ?_
        rw [List.foldl_cons, h, hm]
        exact List.mem_cons_self b t
    · exact Or.inr (List.mem_cons_of_mem b h)

lemma listMin_le (l : List ℚ) (x : ℚ) (hx : x ∈ l) : listMin l ≤ x :=
  (foldl_min_le l (l.headD 0)).2 x hx

lemma listMin_mem (l : List ℚ) (hl : l ≠ []) : listMin l ∈ l := by
  rcases foldl_min_mem l (l.headD 0) with h | h
  · rw [listMin, h]
    cases l with
    | nil => exact absurd rfl hl
    | cons a t => simp
  · exact h

lemma le_listMax (l : List ℚ) (x : ℚ) (hx : x ∈ l) : x ≤ listMax l :=
  (le_foldl_max l (l.headD 0)).2 x hx

lemma listMax_mem (l : List ℚ) (hl : l ≠ []) : listMax l ∈ l := by
  rcases foldl_max_mem l (l.headD 0) with h | h
  · rw [listMax, h]
    cases l with
    | nil => exact absurd rfl hl
    | cons a t => simp
  · exact h

end MinMax

section BinIndex

/-- The unique bin a value falls into: `min 19 ⌊(s - lo)/w⌋`, with
everything in the last bin when the range is degenerate. -/
def binIndex (lo w s : ℚ) : ℕ :=
  if 0 < w then min 19 (Int.toNat ⌊(s - lo) / w⌋) else 19

lemma binIndex_lt (lo w s : ℚ) : binIndex lo w s < 20 := by
  rw [binIndex]
  split
  · omega
  · omega

lemma inBin_last (lo w s : ℚ) :
    (inBin lo w 19 s = true) ↔ (lo + (19 : ℚ) * w ≤ s ∧ s ≤ lo + 20 * w) := by
  simp [inBin]

lemma inBin_of_ne (lo w s : ℚ) (i : ℕ) (h19 : ¬i + 1 = 20) :
    (inBin lo w i s = true)
      ↔ (lo + (i : ℚ) * w ≤ s ∧ s < lo + ((i : ℚ) + 1) * w) := by
  simp [inBin, h19]

lemma inBin_iff_binIndex (lo w s : ℚ) (hw : 0 ≤ w) (hlo : lo ≤ s)
    (hhi : s ≤ lo + 20 * w) (i : ℕ) (hi : i < 20) :
    inBin lo w i s = true ↔ binIndex lo w s = i := by
  rcases hw.eq_or_lt with hw0 | hwpos
  · obtain rfl : w = 0 := hw0.symm
    have hbi : binIndex lo 0 s = 19 := by
      rw [binIndex, if_neg (lt_irrefl 0)]
    by_cases h19 : i + 1 = 20
    · have hi19 : i = 19 := by omega
      subst hi19
      rw [inBin_last, hbi]
      constructor
      · intro _; rfl
      · intro _
        constructor <;> linarith
    · rw [inBin_of_ne lo 0 s i h19, hbi]
      constructor
      · rintro ⟨_, h2⟩
        have : s < lo := by linarith
        linarith
      · intro h
        omega
  · have hq0 : (0 : ℚ) ≤ (s - lo) / w := div_nonneg (by linarith) hw
    have hq20 : (s - lo) / w ≤ 20 := by
      rw [div_le_iff hwpos]; linarith
    have hn0 : (0 : ℤ) ≤ ⌊(s - lo) / w⌋ :=
      Int.le_floor.mpr (by exact_mod_cast hq0)
    have hlow : ∀ j : ℕ, (lo + (j : ℚ) * w ≤ s ↔ (j : ℚ) ≤ (s - lo) / w) := by
      intro j
      rw [le_div_iff hwpos]
      constructor <;> intro h <;> linarith
    rw [binIndex, if_pos hwpos]
    by_cases h19 : i + 1 = 20
    · have hi19 : i = 19 := by omega
      subst hi19
      rw [inBin_last]
      constructor
      · rintro ⟨h1, _⟩
        have h19q : (19 : ℚ) ≤ (s - lo) / w := by
          have := (hlow 19).mp (by exact_mod_cast h1)
          exact_mod_cast this
        have h19n : (19 : ℤ) ≤ ⌊(s - lo) / w⌋ :=
          Int.le_floor.mpr (by exact_mod_cast h19q)
        omega
      · intro hb
        have h19n : (19 : ℤ) ≤ ⌊(s - lo) / w⌋ := by omega
        have h19q : (19 : ℚ) ≤ (s - lo) / w :=
          le_trans (by exact_mod_cast h19n) (Int.floor_le _)
        refine ⟨?_, by linarith⟩
        have := (hlow 19).mpr h19q
        exact_mod_cast this
    · have hne19 : i ≤ 18 := by omega
      rw [inBin_of_ne lo w s i h19]
      constructor
      · rintro ⟨h1, h2⟩
        have hl : (i : ℚ) ≤ (s - lo) / w := (hlow i).mp h1
        have hu : (s - lo) / w < (i : ℚ) + 1 := by
          rw [div_lt_iff hwpos]
          linarith
        have hfl : ⌊(s - lo) / w⌋ = (i : ℤ) := by
          rw [Int.floor_eq_iff]
          exact ⟨by exact_mod_cast hl, by push_cast; exact hu⟩
        rw [hfl]
        omega
      · intro hb
        have hfl : ⌊(s - lo) / w⌋ = (i : ℤ) := by omega
        have hl : (i : ℚ) ≤ (s - lo) / w := by
          have := Int.floor_le ((s - lo) / w)
          rw [hfl] at this
          exact_mod_cast this
        have hu : (s - lo) / w < (i : ℚ) + 1 := by
          have := Int.lt_floor_add_one ((s - lo) / w)
          rw [hfl] at this
          exact_mod_cast this
        refine ⟨(hlow i).mpr hl, ?_⟩
        rw [div_lt_iff hwpos] at hu
        linarith

lemma binWidth_nonneg (lo hi : ℚ) (h : lo ≤ hi) : 0 ≤ binWidth lo hi := by
  rw [binWidth]
  exact div_nonneg (by linarith) (by norm_num)

lemma binWidth_top (lo hi : ℚ) : lo + 20 * binWidth lo hi = hi := by
  rw [binWidth]
  field_simp

end BinIndex

attribute [irreducible] inBin binWidth binIndex

set_option maxHeartbeats 1600000 in
/-- Within one gender's series of a nonempty view, the 20 bins partition
the rows of that gender: the bin counts sum to that gender's row count. -/
lemma histogram_gender_partition (view : List Row) (hne : view ≠ [])
    (g : String) :
    ((List.range 20).map fun i =>
      (view.filter fun r =>
        decide (r.Gender = g)
          && inBin (listMin (stressValues view))
            (binWidth (listMin (stressValues view))
              (listMax (stressValues view))) i r.Stress).length).sum
    = (view.filter fun r => decide (r.Gender = g)).length := by
  have hsv : stressValues view ≠ [] := by
    simp [stressValues, hne]
  have hlohi : listMin (stressValues view) ≤ listMax (stressValues view) :=
    listMin_le _ _ (listMax_mem _ hsv)
  have hw0 : 0 ≤ binWidth (listMin (stressValues view))
      (listMax (stressValues view)) := binWidth_nonneg _ _ hlohi
  have htop : listMin (stressValues view)
      + 20 * binWidth (listMin (stressValues view))
          (listMax (stressValues view))
      = listMax (stressValues view) := binWidth_top _ _
  have hbin : ∀ i ∈ List.range 20,
      (view.filter fun r =>
        decide (r.Gender = g)
          && inBin (listMin (stressValues view))
            (binWidth (listMin (stressValues view))
              (listMax (stressValues view))) i r.Stress)
      = (view.filter fun r => decide (r.Gender = g)).filter
          fun r => decide (binIndex (listMin (stressValues view))
            (binWidth (listMin (stressValues view))
              (listMax (stressValues view))) r.Stress = i) := by
    intro i hir
    rw [List.filter_filter]
    refine List.filter_congr fun r hr => ?_
    have hmem : r.Stress ∈ stressValues view :=
      List.mem_map_of_mem _ hr
    have hlo' : listMin (stressValues view) ≤ r.Stress :=
      listMin_le _ _ hmem
    have hhi' : r.Stress ≤ listMin (stressValues view)
        + 20 * binWidth (listMin (stressValues view))
            (listMax (stressValues view)) := by
      rw [htop]
      exact le_listMax _ _ hmem
    have hiff := inBin_iff_binIndex (listMin (stressValues view))
      (binWidth (listMin (stressValues view))
        (listMax (stressValues view))) r.Stress hw0 hlo' hhi' i
      (List.mem_range.mp hir)
    have hpb : inBin (listMin (stressValues view))
        (binWidth (listMin (stressValues view))
          (listMax (stressValues view))) i r.Stress
        = decide (binIndex (listMin (stressValues view))
            (binWidth (listMin (stressValues view))
              (listMax (stressValues view))) r.Stress = i) := by
      apply Bool.eq_iff_iff.mpr
      rw [decide_eq_true_eq]
      exact hiff
    rw [hpb, Bool.and_comm]
  refine Eq.trans (congrArg List.sum
    (List.map_congr_left fun i hir => congrArg List.length (hbin i hir))) ?_
  have hs2 := sum_length_filter_eq
    (fun r => binIndex (listMin (stressValues view))
      (binWidth (listMin (stressValues view))
        (listMax (stressValues view))) r.Stress)
    (List.range 20) (List.nodup_range 20)
    (view.filter fun r => decide (r.Gender = g))
    (fun x _ => List.mem_range.mpr (binIndex_lt _ _ x.Stress))
  simpa using hs2

set_option maxHeartbeats 1600000 in
/-- All bin counts of all gender series sum to the view's row count. -/
lemma histogram_total (view : List Row) (hne : view ≠ []) :
    ((stressHistogram view).map fun srs => srs.2.sum).sum = view.length := by
  have hnemp : ¬view.isEmpty = true := by
    simp [List.isEmpty_iff, hne]
  rw [stressHistogram, if_neg hnemp, List.map_map]
  refine Eq.trans (congrArg List.sum
    (List.map_congr_left fun g _ => histogram_gender_partition view hne g)) ?_
  exact sum_length_filter_eq (fun r => r.Gender) _ (nodup_pdUnique _) view
    (fun x hx => (mem_pdUnique _ _).mpr (List.mem_map_of_mem _ hx))

set_option maxHeartbeats 800000 in
/-- C8: the stress-distribution chart of a nonempty filtered view has one
series per gender value present, each series has exactly 20 bins, the
bins span the observed range of `Stress` (from its true minimum to its
true maximum), and every row is counted in exactly one bin of its
gender's series (the per-series counts total the row count). -/
theorem stressHistogram_spec (view : List Row) (hne : view ≠ []) :
    (stressHistogram view).map Prod.fst = pdUnique (view.map fun r => r.Gender)
    ∧ (∀ srs ∈ stressHistogram view, srs.2.length = 20)
    ∧ listMin (stressValues view) ∈ stressValues view
    ∧ (∀ q ∈ stressValues view, listMin (stressValues view) ≤ q)
    ∧ listMax (stressValues view) ∈ stressValues view
    ∧ (∀ q ∈ stressValues view, q ≤ listMax (stressValues view))
    ∧ ((stressHistogram view).map fun srs => srs.2.sum).sum = view.length := by
  have hnemp : ¬view.isEmpty = true := by
    simp [List.isEmpty_iff, hne]
  have hsv : stressValues view ≠ [] := by
    simp [stressValues, hne]
  refine ⟨?_, ?_, listMin_mem _ hsv, fun q hq => listMin_le _ q hq,
    listMax_mem _ hsv, fun q hq => le_listMax _ q hq,
    histogram_total view hne⟩
  · rw [stressHistogram, if_neg hnemp, List.map_map]
    exact List.map_id _
  · intro srs hsrs
    rw [stressHistogram, if_neg hnemp] at hsrs
    rcases List.mem_map.mp hsrs with ⟨g, _, rfl⟩
    simp

theorem stressHistogram_spec_witness :
    dfTest ≠ [] ∧
      (stressHistogram dfTest).map Prod.fst
        = pdUnique (dfTest.map fun r => r.Gender) :=
  ⟨by decide, (stressHistogram_spec dfTest (by decide)).1⟩

/-- The fixed list of 15 numeric columns of the correlation heatmap
(src/dashboard.py `num_cols`, lines 134-140), in source order. -/
def numCol : Fin 15 → Row → ℚ
  | ⟨0, _⟩ => fun r => r.Age
  | ⟨1, _⟩ => fun r => r.TenureMonths
  | ⟨2, _⟩ => fun r => r.PerformanceScore
  | ⟨3, _⟩ => fun r => r.Satisfaction
  | ⟨4, _⟩ => fun r => r.Engagement
  | ⟨5, _⟩ => fun r => r.Motivation
  | ⟨6, _⟩ => fun r => r.Stress
  | ⟨7, _⟩ => fun r => r.WorkLifeBalance
  | ⟨8, _⟩ => fun r => r.OvertimeHours
  | ⟨9, _⟩ => fun r => r.TrainingHoursLastYear
  | ⟨10, _⟩ => fun r => r.AbsenteeismDays
  | ⟨11, _⟩ => fun r => r.PeerRating
  | ⟨12, _⟩ => fun r => r.ManagerRating
  | ⟨13, _⟩ => fun r => r.ProjectLoad
  | ⟨14, _⟩ => fun r => r.LPA_Profile

/-- Column `i` of `df_filtered[num_cols]`. -/
def colVals (view : List Row) (i : Fin 15) : List ℚ := view.map (numCol i)

/-- A column's values demeaned by its arithmetic mean. -/
def demean (l : List ℚ) : List ℚ := l.map fun x => x - l.sum / l.length

/-- Centered cross sum of two columns. -/
def sxy (xs ys : List ℚ) : ℚ :=
  (((demean xs).zip (demean ys)).map fun p => p.1 * p.2).sum

/-- Centered sum of squares of one column (its variance numerator). -/
def sxx (xs : List ℚ) : ℚ := sxy xs xs

/-- One Pearson entry of `df_filtered[num_cols].corr()`: NaN (modelled as
`none`) when either column has zero variance (constant, or fewer than two
rows); else the centered cross sum over the product of the standard
deviations. -/
noncomputable def corrEntry (xs ys : List ℚ) : Option ℝ :=
  if sxx xs = 0 ∨ sxx ys = 0 then none
  else
    some ((sxy xs ys : ℝ)
      / (Real.sqrt ((sxx xs : ℚ) : ℝ) * Real.sqrt ((sxx ys : ℚ) : ℝ)))

/-- Entry (i, j) of the 15×15 correlation matrix `corr`
(src/dashboard.py line 141). -/
noncomputable def corr (view : List Row) (i j : Fin 15) : Option ℝ :=
  corrEntry (colVals view i) (colVals view j)

/-- A constant column: all its values coincide. -/
def IsConstCol (l : List ℚ) : Prop := ∀ x ∈ l, ∀ y ∈ l, x = y

section CorrLemmas

lemma zip_mul_comm : ∀ (l1 l2 : List ℚ),
    ((l1.zip l2).map fun p => p.1 * p.2) = ((l2.zip l1).map fun p => p.1 * p.2)
  | [], l2 => by cases l2 <;> simp
  | a :: l1, [] => by simp
  | a :: l1, b :: l2 => by
    simp only [List.zip_cons_cons, List.map_cons]
    rw [mul_comm, zip_mul_comm l1 l2]

lemma sxy_comm (xs ys : List ℚ) : sxy xs ys = sxy ys xs :=
  congrArg List.sum (zip_mul_comm (demean xs) (demean ys))

lemma zip_self_mul : ∀ l : List ℚ,
    ((l.zip l).map fun p => p.1 * p.2) = l.map fun x => x ^ 2
  | [] => rfl
  | a :: l => by
    simp only [List.zip_cons_cons, List.map_cons]
    rw [zip_self_mul l, sq]

lemma sxx_eq_sum_sq (xs : List ℚ) :
    sxx xs = ((demean xs).map fun x => x ^ 2).sum := by
  rw [sxx, sxy, zip_self_mul]

lemma sum_sq_nonneg (l : List ℚ) : 0 ≤ (l.map fun x => x ^ 2).sum := by
  apply List.sum_nonneg
  intro x hx
  rcases List.mem_map.mp hx with ⟨a, _, rfl⟩
  positivity

lemma sxx_nonneg (xs : List ℚ) : 0 ≤ sxx xs := by
  rw [sxx_eq_sum_sq]
  exact sum_sq_nonneg _

lemma cs_key (a b S A B : ℚ) (hA : 0 ≤ A) (hB : 0 ≤ B) (h : S ^ 2 ≤ A * B) :
    2 * (a * b) * S ≤ a ^ 2 * B + b ^ 2 * A := by
  have hsq : 4 * a ^ 2 * b ^ 2 * S ^ 2 ≤ 4 * a ^ 2 * b ^ 2 * (A * B) :=
    mul_le_mul_of_nonneg_left h (by positivity)
  have h1 : (2 * (a * b) * S) ^ 2 ≤ (a ^ 2 * B + b ^ 2 * A) ^ 2 := by
    nlinarith [hsq, sq_nonneg (a ^ 2 * B - b ^ 2 * A)]
  have h2 : (0 : ℚ) ≤ a ^ 2 * B + b ^ 2 * A := by positivity
  rcases le_or_lt (2 * (a * b) * S) 0 with hx | hx
  · exact le_trans hx h2
  · nlinarith [h1, h2, hx]

lemma cs_step (x y S A B : ℚ) (hA : 0 ≤ A) (hB : 0 ≤ B)
    (ih : S ^ 2 ≤ A * B) : (x * y + S) ^ 2 ≤ (x ^ 2 + A) * (y ^ 2 + B) := by
  nlinarith [cs_key x y S A B hA hB ih, ih]

lemma list_cauchy (ps0 : List (ℚ × ℚ)) :
    ((ps0.map fun p => p.1 * p.2).sum) ^ 2
      ≤ ((ps0.map fun p => p.1 ^ 2).sum) * ((ps0.map fun p => p.2 ^ 2).sum) := by
  induction ps0 with
  | nil => simp
  | cons p ps ihp =>
    have hA : 0 ≤ (ps.map fun q => q.1 ^ 2).sum := by
      apply List.sum_nonneg
      intro x hx
      rcases List.mem_map.mp hx with ⟨q, _, rfl⟩
      positivity
    have hB : 0 ≤ (ps.map fun q => q.2 ^ 2).sum := by
      apply List.sum_nonneg
      intro x hx
      rcases List.mem_map.mp hx with ⟨q, _, rfl⟩
      positivity
    obtain ⟨x, y⟩ := p
    simp only [List.map_cons, List.sum_cons]
    revert ihp hA hB
    generalize (List.map (fun q : ℚ × ℚ => q.1 * q.2) ps).sum = S
    generalize (List.map (fun q : ℚ × ℚ => q.1 ^ 2) ps).sum = A
    generalize (List.map (fun q : ℚ × ℚ => q.2 ^ 2) ps).sum = B
    intro ihp hA hB
    exact cs_step x y S A B hA hB ihp

lemma zip_fst_sq : ∀ (l1 l2 : List ℚ), l1.length = l2.length →
    ((l1.zip l2).map fun p => p.1 ^ 2) = l1.map fun x => x ^ 2
  | [], [], _ => rfl
  | [], _ :: _, h => by simp at h
  | _ :: _, [], h => by simp at h
  | a :: l1, b :: l2, h => by
    simp only [List.zip_cons_cons, List.map_cons]
    rw [zip_fst_sq l1 l2 (by simpa using h)]

lemma zip_snd_sq : ∀ (l1 l2 : List ℚ), l1.length = l2.length →
    ((l1.zip l2).map fun p => p.2 ^ 2) = l2.map fun x => x ^ 2
  | [], [], _ => rfl
  | [], _ :: _, h => by simp at h
  | _ :: _, [], h => by simp at h
  | a :: l1, b :: l2, h => by
    simp only [List.zip_cons_cons, List.map_cons]
    rw [zip_snd_sq l1 l2 (by simpa using h)]

lemma sxy_sq_le (xs ys : List ℚ) (hlen : xs.length = ys.length) :
    (sxy xs ys) ^ 2 ≤ sxx xs * sxx ys := by
  have hdlen : (demean xs).length = (demean ys).length := by
    simp [demean, hlen]
  have hcs := list_cauchy ((demean xs).zip (demean ys))
  rw [zip_fst_sq _ _ hdlen, zip_snd_sq _ _ hdlen] at hcs
  rw [sxy, sxx_eq_sum_sq, sxx_eq_sum_sq]
  exact hcs

lemma corr_ratio_abs_le (xs ys : List ℚ) (hlen : xs.length = ys.length)
    (hx : sxx xs ≠ 0) (hy : sxx ys ≠ 0) :
    |(sxy xs ys : ℝ)
        / (Real.sqrt ((sxx xs : ℚ) : ℝ) * Real.sqrt ((sxx ys : ℚ) : ℝ))| ≤ 1 := by
  have hxpos : (0 : ℚ) < sxx xs := lt_of_le_of_ne (sxx_nonneg xs) (Ne.symm hx)
  have hypos : (0 : ℚ) < sxx ys := lt_of_le_of_ne (sxx_nonneg ys) (Ne.symm hy)
  have hxR : (0 : ℝ) < ((sxx xs : ℚ) : ℝ) := by exact_mod_cast hxpos
  have hyR : (0 : ℝ) < ((sxx ys : ℚ) : ℝ) := by exact_mod_cast hypos
  have hcs : ((sxy xs ys : ℚ) : ℝ) ^ 2
      ≤ ((sxx xs : ℚ) : ℝ) * ((sxx ys : ℚ) : ℝ) := by
    exact_mod_cast sxy_sq_le xs ys hlen
  have habs : |((sxy xs ys : ℚ) : ℝ)|
      ≤ Real.sqrt (((sxx xs : ℚ) : ℝ) * ((sxx ys : ℚ) : ℝ)) :=
    Real.abs_le_sqrt hcs
  rw [Real.sqrt_mul hxR.le] at habs
  have hden : 0 < Real.sqrt ((sxx xs : ℚ) : ℝ) * Real.sqrt ((sxx ys : ℚ) : ℝ) :=
    mul_pos (Real.sqrt_pos.mpr hxR) (Real.sqrt_pos.mpr hyR)
  rw [abs_div, abs_of_pos hden]
  rw [div_le_one hden]
  exact habs

lemma const_sum (c : ℚ) : ∀ l : List ℚ, (∀ x ∈ l, x = c) →
    l.sum = l.length * c
  | [], _ => by simp
  | a :: l, h => by
    have ha : a = c := h a (List.mem_cons_self a l)
    have hl : ∀ x ∈ l, x = c := fun x hx => h x (List.mem_cons_of_mem _ hx)
    simp only [List.sum_cons, List.length_cons, ha, const_sum c l hl]
    push_cast
    ring

lemma sxx_eq_zero_of_const (l : List ℚ) (h : IsConstCol l) : sxx l = 0 := by
  rw [sxx_eq_sum_sq]
  rcases l with _ | ⟨c, t⟩
  · simp [demean]
  · have hconst : ∀ x ∈ c :: t, x = c :=
      fun x hx => h x hx c (List.mem_cons_self c t)
    have hsum : (c :: t).sum = ((c :: t).length : ℚ) * c :=
      const_sum c (c :: t) hconst
    apply List.sum_eq_zero
    intro x hx
    rcases List.mem_map.mp hx with ⟨a, ha, rfl⟩
    rcases List.mem_map.mp ha with ⟨b, hb, rfl⟩
    have hbc : b = c := hconst b hb
    have hlen : ((c :: t).length : ℚ) ≠ 0 := Nat.cast_ne_zero.mpr (by simp)
    rw [hbc, hsum, mul_comm, mul_div_assoc, div_self hlen]
    ring

lemma corrEntry_comm (xs ys : List ℚ) : corrEntry xs ys = corrEntry ys xs := by
  rw [corrEntry, corrEntry, sxy_comm]
  by_cases h1 : sxx xs = 0 <;> by_cases h2 : sxx ys = 0 <;>
    simp [h1, h2, mul_comm]

lemma corrEntry_self (xs : List ℚ) (hx : sxx xs ≠ 0) :
    corrEntry xs xs = some 1 := by
  rw [corrEntry, if_neg (by push_neg; exact ⟨hx, hx⟩)]
  congr 1
  rw [show sxy xs xs = sxx xs from rfl,
    Real.mul_self_sqrt (by exact_mod_cast sxx_nonneg xs)]
  exact div_self (by exact_mod_cast hx)

end CorrLemmas

/-- C2: over any filtered view, the correlation matrix on the fixed 15
numeric columns is symmetric, every diagonal entry of a non-constant
(nonzero-variance) column is 1, every defined entry lies in [-1, 1], and
entries involving a constant column are NaN (`none`) without failing. -/
theorem corrMatrix_props (view : List Row) (i j : Fin 15) :
    corr view i j = corr view j i
    ∧ (sxx (colVals view i) ≠ 0 → corr view i i = some 1)
    ∧ (∀ r : ℝ, corr view i j = some r → -1 ≤ r ∧ r ≤ 1)
    ∧ (IsConstCol (colVals view i) →
        corr view i j = none ∧ corr view j i = none) := by
  refine ⟨corrEntry_comm _ _, fun hx => corrEntry_self _ hx, ?_, ?_⟩
  · intro r hr
    rw [corr, corrEntry] at hr
    by_cases hc : sxx (colVals view i) = 0 ∨ sxx (colVals view j) = 0
    · rw [if_pos hc] at hr
      cases hr
    · rw [if_neg hc] at hr
      push_neg at hc
      have hlen : (colVals view i).length = (colVals view j).length := by
        simp [colVals]
      have hb := corr_ratio_abs_le (colVals view i) (colVals view j)
        hlen hc.1 hc.2
      rw [Option.some_inj] at hr
      rw [hr] at hb
      exact abs_le.mp hb
  · intro hconst
    have hzero : sxx (colVals view i) = 0 := sxx_eq_zero_of_const _ hconst
    constructor
    · rw [corr, corrEntry, if_pos (Or.inl hzero)]
    · rw [corr, corrEntry, if_pos (Or.inr hzero)]

theorem corrMatrix_props_witness :
    sxx (colVals dfTest 0) ≠ 0 ∧ corr dfTest 0 0 = some 1 := by
  have hcol : colVals dfTest 0 = [(30 : ℚ), 41, 25] := rfl
  have hsxx : sxx (colVals dfTest 0) ≠ 0 := by
    rw [hcol]
    norm_num [sxx, sxy, demean]
  exact ⟨hsxx, (corrMatrix_props dfTest 0 0).2.1 hsxx⟩

/-- C3: when the filters match zero rows nothing raises: the row count is
0, both KPI means are NaN (`none`) placeholders, the profile count is 0,
and every per-chart aggregation (grouped value counts, box-plot groups,
histogram, attrition group means, correlation entries) degrades to an
empty or NaN result. -/
theorem emptyView_safe (df : List Row) (sel : FilterSelection)
    (hempty : applyFilters df sel = []) :
    kpiTotalEmployees (applyFilters df sel) = 0
    ∧ kpiAvgSatisfaction (applyFilters df sel) = none
    ∧ kpiAvgPerformance (applyFilters df sel) = none
    ∧ kpiProfileCount (applyFilters df sel) = 0
    ∧ profileCounts (applyFilters df sel) = []
    ∧ deptCounts (applyFilters df sel) = []
    ∧ wlbByDept (applyFilters df sel) = []
    ∧ stressHistogram (applyFilters df sel) = []
    ∧ attrData (applyFilters df sel) = []
    ∧ (∀ i j : Fin 15, corr (applyFilters df sel) i j = none) := by
  rw [hempty]
  refine ⟨rfl, rfl, rfl, rfl, rfl, rfl, rfl, rfl, rfl, ?_⟩
  intro i j
  rw [corr, corrEntry,
    if_pos (show sxx (colVals [] i) = 0 ∨ sxx (colVals [] j) = 0
      from Or.inl rfl)]

theorem emptyView_safe_witness :
    applyFilters dfTest ⟨"Marketing", "All"⟩ = []
    ∧ kpiAvgSatisfaction (applyFilters dfTest ⟨"Marketing", "All"⟩) = none :=
  ⟨by decide,
    (emptyView_safe dfTest ⟨"Marketing", "All"⟩ (by decide)).2.1⟩

end HRDashboard
